import Mathlib

/-!
Shallow embedding of `main.py` (ANA price Discord bot).

The embedded pieces are the ones the verified claims are about:
* the text cleaning and `float()` validation of `fetch_price_attempt`
  (lines 414-435), modelled on `List Char` with a faithful model of
  Python `str.replace`, `str.strip` and the `float()` literal grammar;
* the ordered selector loop of `fetch_price_attempt` (lines 368-412);
* the driver lifecycle of `fetch_price_attempt` (lines 326-480),
  with the `finally` block that quits the driver;
* the retry loop `fetch_price` (lines 482-510) with its two backoff
  branches;
* the reconciliation tick `update_bot_status` (lines 512-564).

External effects (Selenium, Discord) are oracles: an attempt environment
gives the outcome of each external interaction, and the embedded
functions return the value the Python code would return plus the list of
observable external actions it would perform.
-/

namespace AnaBot

/-- ASCII whitespace recognised by Python `str.strip()` and by the
whitespace stripping of `float()`. -/
def isPySpace (c : Char) : Bool :=
  c == ' ' || c == '\t' || c == '\n' || c == '\r' || c == '\x0b' || c == '\x0c'

/-- Python `s.lstrip()`. -/
def pyStripLeft (s : List Char) : List Char :=
  s.dropWhile isPySpace

/-- Python `s.rstrip()`. -/
def pyStripRight (s : List Char) : List Char :=
  (s.reverse.dropWhile isPySpace).reverse

/-- Python `s.strip()`. -/
def pyStrip (s : List Char) : List Char :=
  pyStripRight (pyStripLeft s)

/-- Python `s.replace("USDC", "")`: deletes every leftmost,
non-overlapping occurrence of `USDC`. -/
def removeUSDC : List Char → List Char
  | [] => []
  | 'U' :: 'S' :: 'D' :: 'C' :: rest => removeUSDC rest
  | c :: rest => c :: removeUSDC rest

/-- Python `s.replace(x, "")` for a single character `x`: deletes every
occurrence of `x`. -/
def removeChar (x : Char) : List Char → List Char
  | [] => []
  | c :: rest => if c = x then removeChar x rest else c :: removeChar x rest

/-- The cleaning at line 420 of `main.py`:
`price_text.replace("USDC", "").replace("$", "").replace(",", "").strip()`. -/
def cleanPrice (s : List Char) : List Char :=
  pyStrip (removeChar ',' (removeChar '$' (removeUSDC s)))

/-- Continuation of a digit run inside the CPython `float()` grammar: a
single underscore may appear between two digits.  Returns the digits seen
(with underscores removed) and the unconsumed remainder. -/
def digitsRunAux : List Char → List Char × List Char
  | [] => ([], [])
  | c :: rest =>
    if c.isDigit then
      let p := digitsRunAux rest
      (c :: p.1, p.2)
    else if c = '_' then
      match rest with
      | [] => ([], [c])
      | d :: rest2 =>
        if d.isDigit then
          let p := digitsRunAux rest2
          (d :: p.1, p.2)
        else ([], c :: rest)
    else ([], c :: rest)

/-- A digit run of the CPython `float()` grammar (must start with a digit;
underscores only between digits). -/
def digitsRun : List Char → List Char × List Char
  | [] => ([], [])
  | c :: rest =>
    if c.isDigit then
      let p := digitsRunAux rest
      (c :: p.1, p.2)
    else ([], c :: rest)

/-- Optional sign at the front of a `float()` literal. -/
def parseSign (s : List Char) : Bool × List Char :=
  match s with
  | [] => (false, [])
  | c :: r =>
    if c = '+' then (false, r)
    else if c = '-' then (true, r)
    else (false, c :: r)

/-- ASCII lower-casing, as used by `float()` for `inf`/`infinity`/`nan`. -/
def lowerChar (c : Char) : Char :=
  if 'A' ≤ c ∧ c ≤ 'Z' then Char.ofNat (c.toNat + 32) else c

/-- Classification of a string accepted by Python `float()`.  For a finite
literal we keep the sign and the mantissa digits (enough to decide
non-negativity and zero-ness of the denoted value; decimal-to-binary
rounding and overflow of huge exponents are not modelled, which is
irrelevant for the concrete inputs used below). -/
inductive PyFloat
  | fin (neg : Bool) (mantissa : List Char)
  | infinite (neg : Bool)
  | nan
deriving DecidableEq

/-- The decimal part of the `float()` grammar:
`digitpart? ("." digitpart?)? (("e"|"E") sign? digitpart)?` with at least
one mantissa digit. -/
def pyDecimal (neg : Bool) (s : List Char) : Option PyFloat :=
  let p1 := digitsRun s
  let ids := p1.1
  let p2 :=
    match p1.2 with
    | [] => (([] : List Char), ([] : List Char))
    | c :: r => if c = '.' then digitsRun r else (([] : List Char), c :: r)
  let fds := p2.1
  if ids = [] ∧ fds = [] then none
  else
    match p2.2 with
    | [] => some (PyFloat.fin neg (ids ++ fds))
    | c :: r =>
      if c = 'e' ∨ c = 'E' then
        let sp := parseSign r
        let p3 := digitsRun sp.2
        if p3.1 ≠ [] ∧ p3.2 = [] then some (PyFloat.fin neg (ids ++ fds))
        else none
      else none

/-- Model of CPython `float(s)`: strips surrounding whitespace, reads an
optional sign, then either a case-insensitive `inf`/`infinity`/`nan` or a
decimal literal.  Returns `none` exactly when `float()` raises
`ValueError`. -/
def pyFloat (s : List Char) : Option PyFloat :=
  let t := pyStrip s
  let sp := parseSign t
  let low := sp.2.map lowerChar
  if low = ['i', 'n', 'f'] ∨ low = ['i', 'n', 'f', 'i', 'n', 'i', 't', 'y'] then
    some (PyFloat.infinite sp.1)
  else if low = ['n', 'a', 'n'] then some PyFloat.nan
  else pyDecimal sp.1 sp.2

/-- `float(s)` succeeds (the validation at line 427 of `main.py`). -/
def floatParses (s : List Char) : Bool :=
  (pyFloat s).isSome

/-- `s` parses under `float()` as a finite, non-negative number (the
guarantee the spec attaches to `PriceValue`). -/
def finiteNonneg (s : List Char) : Bool :=
  match pyFloat s with
  | some (PyFloat.fin neg m) => !neg || m.all (fun c => c = '0')
  | _ => false

/-- Failure kinds of one fetch attempt; the Python code reports each as a
distinct log message and returns `None` (spec §7 taxonomy). -/
inductive FetchFailure
  | provisioningFailure
  | sessionFailure
  | timeoutFailure
  | unexpectedFailure
  | noElementFound
  | invalidFormat
deriving DecidableEq

/-- Lines 414-435 of `main.py`: clean the found text, reject it if it is
empty after cleaning or `float()` fails, otherwise return the cleaned
string. -/
def normalize_price (price_text : List Char) : Except FetchFailure (List Char) :=
  let cleaned_price := cleanPrice price_text
  if cleaned_price ≠ [] then
    if floatParses cleaned_price then Except.ok cleaned_price
    else Except.error FetchFailure.invalidFormat
  else Except.error FetchFailure.invalidFormat

/-- Locator kinds used by the selector list (Selenium `By.*`). -/
inductive By
  | className
  | cssSelector
  | xpath
deriving DecidableEq

/-- The static selector list `selectors_to_try` (lines 368-377), in source
order. -/
def selectors_to_try : List (By × String) := [
  (By.className, "DataPoint_dataPointValue__Bzf_E"),
  (By.cssSelector, "[class*=\x27DataPoint_dataPointValue\x27]"),
  (By.cssSelector, "[class*=\x27dataPointValue\x27]"),
  (By.cssSelector, "[data-testid*=\x27price\x27]"),
  (By.cssSelector, ".price-value"),
  (By.cssSelector, "[class*=\x27price\x27]"),
  (By.xpath, "//span[contains(@class, \x27DataPoint\x27)]"),
  (By.xpath, "//div[contains(@class, \x27DataPoint\x27)]//span")]

/-- The selector loop of lines 379-412.  `lookup` is the page oracle: for
a selector it returns the located element's text, or `none` when locating
times out or raises (both are caught and `continue` the loop).  The loop
stores `element.text.strip()` and breaks on the first non-empty stored
text.  Returns the final `price_text` (`none` when every strategy was
exhausted without non-empty text, which includes the case of a located
element whose stripped text is empty) together with the number of
strategies consulted. -/
def runStrategies (lookup : By × String → Option (List Char)) :
    List (By × String) → Option (List Char) × Nat
  | [] => (none, 0)
  | s :: rest =>
    match lookup s with
    | some raw =>
      let price_text := pyStrip raw
      if price_text ≠ [] then (some price_text, 1)
      else
        let p := runStrategies lookup rest
        (p.1, p.2 + 1)
    | none =>
      let p := runStrategies lookup rest
      (p.1, p.2 + 1)

/-- Strategy `s` yields nothing under the page oracle `lookup`: either
locating fails or times out, or the located element's stripped text is
empty (both make the loop `continue`). -/
def consultFails (lookup : By × String → Option (List Char)) (s : By × String) : Prop :=
  match lookup s with
  | none => True
  | some raw => pyStrip raw = []

/-- Exceptions that can be raised while navigating and waiting
(lines 347-365): each is caught by the attempt's handlers
(lines 463-472) and becomes a `None` return after the `finally` block
quits the driver. -/
inductive PageRaise
  | noRaise
  | timeout
  | webdriver
  | unexpected
deriving DecidableEq

/-- Oracle for one fetch attempt: the outcome of each external
interaction the attempt performs. -/
structure AttemptEnv where
  /-- `setup_chromedriver_and_chrome()` returned usable paths
  (lines 334-337). -/
  setupOk : Bool
  /-- `webdriver.Chrome(...)` returned a driver instead of raising
  (line 347); when it raises, the local `driver` stays `None`. -/
  driverOk : Bool
  /-- behaviour of `driver.get` and the waits (lines 350-365). -/
  pageRaise : PageRaise
  /-- element text per selector; `none` when locating times out or
  raises. -/
  text : By × String → Option (List Char)

/-- Observable browser-session lifecycle events of one attempt. -/
inductive Ev
  | start
  | quitCall
deriving DecidableEq

/-- One fetch attempt, `fetch_price_attempt` (lines 326-480): the result
the Python function returns (with the failure kind the code logs in place
of the bare `None`) and the session lifecycle events.  Every path that
created a driver runs the `finally` block (lines 474-480), which calls
`driver.quit()`. -/
def fetch_price_attempt (env : AttemptEnv) : Except FetchFailure (List Char) × List Ev :=
  if env.setupOk = false then (Except.error FetchFailure.provisioningFailure, [])
  else if env.driverOk = false then (Except.error FetchFailure.sessionFailure, [])
  else
    match env.pageRaise with
    | PageRaise.timeout => (Except.error FetchFailure.timeoutFailure, [Ev.start, Ev.quitCall])
    | PageRaise.webdriver => (Except.error FetchFailure.sessionFailure, [Ev.start, Ev.quitCall])
    | PageRaise.unexpected => (Except.error FetchFailure.unexpectedFailure, [Ev.start, Ev.quitCall])
    | PageRaise.noRaise =>
      match (runStrategies env.text selectors_to_try).1 with
      | none => (Except.error FetchFailure.noElementFound, [Ev.start, Ev.quitCall])
      | some price_text => (normalize_price price_text, [Ev.start, Ev.quitCall])

/-- `max_attempts` (line 484). -/
def max_attempts : Nat := 3

/-- `base_delay` in seconds (line 485). -/
def base_delay : Nat := 30

/-- Outcome of one iteration of the retry loop of `fetch_price`
(lines 487-507): the attempt returned a price, returned `None`, or raised
out of `fetch_price_attempt` (the `except` branch at lines 502-507). -/
inductive AttemptOutcome
  | ok (v : List Char)
  | failed
  | raised
deriving DecidableEq

/-- Outcomes produced by running `fetch_price_attempt` itself: the
attempt catches every exception internally and returns `None`, so the
`raised` outcome never occurs in the composed program. -/
def outcomesOf (envs : Nat → AttemptEnv) : Nat → AttemptOutcome :=
  fun n =>
    match (fetch_price_attempt (envs n)).1 with
    | Except.ok v => AttemptOutcome.ok v
    | Except.error _ => AttemptOutcome.failed

/-- The body of `fetch_price` (lines 487-507) over the remaining attempt
numbers.  Returns the fetched price (or `none`) and the list of backoff
delays slept, in order.  A failed attempt with attempts remaining sleeps
`base_delay * 2 ** (attempt - 1) + random.randint(5, 15)` (line 498); an
attempt that raised sleeps `base_delay + random.randint(10, 20)`
(line 505).  `jA`/`jB` are the realisations of those two jitter draws. -/
def fetch_price_go (outcomes : Nat → AttemptOutcome) (jA jB : Nat → Nat) :
    List Nat → Option (List Char) × List Nat
  | [] => (none, [])
  | attempt :: rest =>
    match outcomes attempt with
    | AttemptOutcome.ok v => (some v, [])
    | AttemptOutcome.failed =>
      let p := fetch_price_go outcomes jA jB rest
      if attempt < max_attempts then
        (p.1, (base_delay * 2 ^ (attempt - 1) + jA attempt) :: p.2)
      else p
    | AttemptOutcome.raised =>
      let p := fetch_price_go outcomes jA jB rest
      if attempt < max_attempts then (p.1, (base_delay + jB attempt) :: p.2)
      else p

/-- `fetch_price` (lines 482-510): `for attempt in range(1, max_attempts + 1)`. -/
def fetch_price (outcomes : Nat → AttemptOutcome) (jA jB : Nat → Nat) :
    Option (List Char) × List Nat :=
  fetch_price_go outcomes jA jB (List.range' 1 max_attempts)

/-- Browser-session event trace of one `fetch_price` run driven by
per-attempt environments: the trace of each attempt actually executed,
concatenated in order (a successful attempt ends the loop). -/
def fetch_price_trace_go (envs : Nat → AttemptEnv) : List Nat → List Ev
  | [] => []
  | a :: rest =>
    let r := fetch_price_attempt (envs a)
    match r.1 with
    | Except.ok _ => r.2
    | Except.error _ => r.2 ++ fetch_price_trace_go envs rest

/-- Browser-session event trace of `fetch_price`. -/
def fetch_price_trace (envs : Nat → AttemptEnv) : List Ev :=
  fetch_price_trace_go envs (List.range' 1 max_attempts)

/-- Outcome of `await channel.edit(name=...)` (lines 544-555). -/
inductive RenameOutcome
  | ok
  | forbidden
  | rateLimited
  | httpOther
  | otherErr
deriving DecidableEq

/-- Oracle for one tick of `update_bot_status`. -/
structure TickEnv where
  /-- `client.is_ready()` (line 517). -/
  ready : Bool
  /-- result of `fetch_price` for this tick (line 526). -/
  fetched : Option (List Char)
  /-- `client.get_channel(VOICE_CHANNEL_ID)` found a voice channel
  (lines 540-541). -/
  channelValid : Bool
  /-- outcome of the rename call, when made. -/
  rename : RenameOutcome

/-- External calls a tick can make. -/
inductive ExtCall
  | presenceUpdate
  | channelRename
deriving DecidableEq

/-- `last_price = None` (line 49). -/
def last_price_init : Option (List Char) := none

/-- One tick of `update_bot_status` (lines 512-564): returns the new
`last_price` and the external calls made, in order.  The presence update
(line 534) is attempted whenever the fetched price is truthy and differs
from `last_price`; its own failure is caught and does not stop the tick.
`last_price` is assigned (line 546) only after `channel.edit` returned
without raising; `discord.Forbidden`, rate-limited and other
`HTTPException`s, and any other exception leave it unchanged. -/
def update_bot_status (env : TickEnv) (last_price : Option (List Char)) :
    Option (List Char) × List ExtCall :=
  if env.ready = true then
    match env.fetched with
    | some price =>
      if price ≠ [] then
        if some price ≠ last_price then
          if env.channelValid = true then
            match env.rename with
            | RenameOutcome.ok =>
              (some price, [ExtCall.presenceUpdate, ExtCall.channelRename])
            | _ => (last_price, [ExtCall.presenceUpdate, ExtCall.channelRename])
          else (last_price, [ExtCall.presenceUpdate])
        else (last_price, [])
      else (last_price, [])
    | none => (last_price, [])
  else (last_price, [])

/-- Valid stopping point for a digit run of the `float()` grammar: the
remainder is empty or starts with a character that cannot extend the
run. -/
def bdryOk : List Char → Prop
  | [] => True
  | c :: _ => c.isDigit = false ∧ c ≠ '_'

/-- A raw extracted text of the shape the spec's normalizer property
quantifies over: a decimal number, optionally `$`-prefixed, optionally
`USDC`-suffixed (separated by optional whitespace), with `,` separators
among the integer digits, surrounded by whitespace. -/
structure DecoratedRaw where
  ws1 : List Char
  ws2 : List Char
  sep : List Char
  dollar : Bool
  usdc : Bool
  intDisplay : List Char
  hasDot : Bool
  frac : List Char

/-- The integer digits of the number: the displayed integer part with the
`,` separators removed. -/
def DecoratedRaw.intDigits (d : DecoratedRaw) : List Char :=
  removeChar ',' d.intDisplay

/-- The numeric value as a plain string: decorations and separators
removed. -/
def DecoratedRaw.number (d : DecoratedRaw) : List Char :=
  d.intDigits ++ (if d.hasDot then '.' :: d.frac else [])

/-- The decorated raw text itself. -/
def DecoratedRaw.raw (d : DecoratedRaw) : List Char :=
  d.ws1 ++ (if d.dollar then ['$'] else []) ++ d.intDisplay ++
    (if d.hasDot then '.' :: d.frac else []) ++
    (if d.usdc then d.sep ++ ['U', 'S', 'D', 'C'] else []) ++ d.ws2

/-- Well-formedness: the whitespace runs are whitespace, the displayed
integer part is digits and commas, the fractional part is digits, and at
least one digit is present (`1`, `1.`, `.5` are all fine, a bare `.` is
not). -/
def DecoratedRaw.WF (d : DecoratedRaw) : Bool :=
  d.ws1.all isPySpace && d.ws2.all isPySpace && d.sep.all isPySpace &&
  d.intDisplay.all (fun c => c.isDigit || c == ',') &&
  d.frac.all Char.isDigit &&
  (if d.hasDot then !(d.intDigits ++ d.frac).isEmpty else !d.intDigits.isEmpty)

/-! ### Helper lemmas about the Python string primitives -/

theorem not_mem_of_all (l : List Char) (p : Char → Bool) (h : ∀ c ∈ l, p c = true)
    (x : Char) (hx : p x = false) : x ∉ l := by
  intro hm
  rw [h x hm] at hx
  exact absurd hx (by decide)

theorem ne_of_digit_of_not (c d : Char) (h : c.isDigit = true) (hd : d.isDigit = false) :
    c ≠ d := by
  intro he
  rw [he, hd] at h
  exact absurd h (by decide)

theorem pySpace_false_of_digit (c : Char) (h : c.isDigit = true) : isPySpace c = false := by
  cases hc : isPySpace c
  · rfl
  · exfalso
    simp only [isPySpace, Bool.or_eq_true, beq_iff_eq] at hc
    rcases hc with ((((rfl | rfl) | rfl) | rfl) | rfl) | rfl <;> exact absurd h (by decide)

theorem lowerChar_of_digit (c : Char) (h : c.isDigit = true) : lowerChar c = c := by
  have hne : ¬('A' ≤ c ∧ c ≤ 'Z') := by
    simp only [Char.isDigit, Bool.and_eq_true, decide_eq_true_eq, ge_iff_le] at h
    rintro ⟨h1, h2⟩
    obtain ⟨ha, hb⟩ := h
    rw [Char.le_def] at h1 h2
    rw [UInt32.le_def, BitVec.le_def] at h1 h2 ha hb
    simp at h1 h2 ha hb
    omega
  simp [lowerChar, hne]

theorem removeUSDC_cons_ne (c : Char) (rest : List Char) (h : c ≠ 'U') :
    removeUSDC (c :: rest) = c :: removeUSDC rest := by
  rw [removeUSDC.eq_def]
  split
  · simp_all
  · rename_i heq
    exact absurd (List.cons.inj heq).1 h
  · rename_i hno heq
    obtain ⟨h1, h2⟩ := List.cons.inj heq
    rw [h1, h2]

theorem removeUSDC_of_not_mem (s : List Char) (h : 'U' ∉ s) : removeUSDC s = s := by
  induction s with
  | nil => rfl
  | cons c rest ih =>
    have hc : c ≠ 'U' := fun he => h (he ▸ List.mem_cons_self c rest)
    rw [removeUSDC_cons_ne c rest hc, ih (fun hm => h (List.mem_cons_of_mem c hm))]

theorem removeUSDC_append_usdc (a b : List Char) (h : 'U' ∉ a) :
    removeUSDC (a ++ 'U' :: 'S' :: 'D' :: 'C' :: b) = a ++ removeUSDC b := by
  induction a with
  | nil => rfl
  | cons c a ih =>
    have hc : c ≠ 'U' := fun he => h (he ▸ List.mem_cons_self c a)
    rw [List.cons_append, removeUSDC_cons_ne _ _ hc,
      ih (fun hm => h (List.mem_cons_of_mem c hm))]
    rfl

theorem removeChar_append (x : Char) (a b : List Char) :
    removeChar x (a ++ b) = removeChar x a ++ removeChar x b := by
  induction a with
  | nil => rfl
  | cons c a ih =>
    by_cases hc : c = x <;> simp [removeChar, hc, ih]

theorem removeChar_of_all_ne (x : Char) (l : List Char) (h : ∀ c ∈ l, c ≠ x) :
    removeChar x l = l := by
  induction l with
  | nil => rfl
  | cons c l ih =>
    have hc : c ≠ x := h c (List.mem_cons_self c l)
    simp [removeChar, hc, ih (fun d hd => h d (List.mem_cons_of_mem c hd))]

theorem mem_removeChar (x : Char) (l : List Char) (c : Char) (h : c ∈ removeChar x l) :
    c ∈ l ∧ c ≠ x := by
  induction l with
  | nil => exact absurd h (by simp [removeChar])
  | cons d l ih =>
    by_cases hd : d = x
    · simp only [removeChar, if_pos hd] at h
      obtain ⟨h1, h2⟩ := ih h
      exact ⟨List.mem_cons_of_mem d h1, h2⟩
    · simp only [removeChar, if_neg hd, List.mem_cons] at h
      rcases h with rfl | h
      · exact ⟨List.mem_cons_self c l, hd⟩
      · obtain ⟨h1, h2⟩ := ih h
        exact ⟨List.mem_cons_of_mem d h1, h2⟩

theorem dropWhile_spaces_append (w l : List Char) (h : ∀ c ∈ w, isPySpace c = true) :
    (w ++ l).dropWhile isPySpace = l.dropWhile isPySpace := by
  induction w with
  | nil => rfl
  | cons c w ih =>
    rw [List.cons_append, List.dropWhile_cons_of_pos (h c (List.mem_cons_self c w)),
      ih (fun d hd => h d (List.mem_cons_of_mem c hd))]

theorem pyStripLeft_append_spaces (w l : List Char) (h : ∀ c ∈ w, isPySpace c = true) :
    pyStripLeft (w ++ l) = pyStripLeft l :=
  dropWhile_spaces_append w l h

theorem pyStripLeft_cons_nospace (c : Char) (l : List Char) (h : isPySpace c = false) :
    pyStripLeft (c :: l) = c :: l := by
  unfold pyStripLeft
  rw [List.dropWhile_cons]
  simp [h]

theorem pyStripRight_append_spaces (l w : List Char) (h : ∀ c ∈ w, isPySpace c = true) :
    pyStripRight (l ++ w) = pyStripRight l := by
  unfold pyStripRight
  rw [List.reverse_append, dropWhile_spaces_append _ _ (fun c hc => h c (by simpa using hc))]

theorem pyStripRight_concat_nospace (l : List Char) (c : Char) (h : isPySpace c = false) :
    pyStripRight (l ++ [c]) = l ++ [c] := by
  unfold pyStripRight
  rw [List.reverse_append]
  simp only [List.reverse_cons, List.reverse_nil, List.nil_append, List.singleton_append,
    List.dropWhile_cons]
  simp [h]

theorem pyStrip_sandwich (w1 m w2 : List Char)
    (h1 : ∀ c ∈ w1, isPySpace c = true) (h2 : ∀ c ∈ w2, isPySpace c = true)
    (c0 : Char) (t : List Char) (hm : m = c0 :: t) (hh : isPySpace c0 = false)
    (cl : Char) (ti : List Char) (hl : m = ti ++ [cl]) (hcl : isPySpace cl = false) :
    pyStrip (w1 ++ m ++ w2) = m := by
  unfold pyStrip
  rw [List.append_assoc, pyStripLeft_append_spaces _ _ h1, hm, List.cons_append,
    pyStripLeft_cons_nospace _ _ hh, ← List.cons_append, ← hm]
  rw [pyStripRight_append_spaces _ _ h2, hl, pyStripRight_concat_nospace _ _ hcl]

theorem removeUSDC_append_left (a b : List Char) (h : 'U' ∉ a) :
    removeUSDC (a ++ b) = a ++ removeUSDC b := by
  induction a with
  | nil => rfl
  | cons c a ih =>
    have hc : c ≠ 'U' := fun he => h (he ▸ List.mem_cons_self c a)
    rw [List.cons_append, removeUSDC_cons_ne _ _ hc,
      ih (fun hm => h (List.mem_cons_of_mem c hm))]
    rfl

/-! ### Helper lemmas about the `float()` grammar -/

theorem digitsRunAux_digits (ds r : List Char) (hds : ∀ c ∈ ds, c.isDigit = true)
    (hr : bdryOk r) : digitsRunAux (ds ++ r) = (ds, r) := by
  induction ds with
  | nil =>
    cases r with
    | nil => rfl
    | cons c rr =>
      obtain ⟨hc1, hc2⟩ := hr
      rw [digitsRunAux.eq_def]
      simp [hc1, hc2]
  | cons d ds ih =>
    have hd : d.isDigit = true := hds d (List.mem_cons_self d ds)
    rw [List.cons_append, digitsRunAux.eq_def]
    simp [hd, ih (fun c hc => hds c (List.mem_cons_of_mem d hc))]

theorem digitsRun_digits (ds r : List Char) (hds : ∀ c ∈ ds, c.isDigit = true)
    (hr : bdryOk r) : digitsRun (ds ++ r) = (ds, r) := by
  cases ds with
  | nil =>
    cases r with
    | nil => rfl
    | cons c rr =>
      obtain ⟨hc1, hc2⟩ := hr
      rw [digitsRun.eq_def]
      simp [hc1]
  | cons d ds =>
    have hd : d.isDigit = true := hds d (List.mem_cons_self d ds)
    rw [List.cons_append, digitsRun.eq_def]
    simp [hd, digitsRunAux_digits ds r
      (fun c hc => hds c (List.mem_cons_of_mem d hc)) hr]

theorem parseSign_cons_other (c : Char) (r : List Char) (h1 : c ≠ '+') (h2 : c ≠ '-') :
    parseSign (c :: r) = (false, c :: r) := by
  simp [parseSign, h1, h2]

/-- Head shape of a plain decimal string `ids ++ ("." ++ fds)?`: it starts
with a digit or with a dot. -/
theorem number_head (ids fds : List Char) (hasDot : Bool)
    (hi : ∀ c ∈ ids, c.isDigit = true)
    (hne : if hasDot then ids ++ fds ≠ [] else ids ≠ []) :
    ∃ c0 t, ids ++ (if hasDot then '.' :: fds else []) = c0 :: t ∧
      (c0.isDigit = true ∨ c0 = '.') := by
  cases ids with
  | cons g gs =>
    exact ⟨g, gs ++ (if hasDot then '.' :: fds else []), by simp,
      Or.inl (hi g (List.mem_cons_self g gs))⟩
  | nil =>
    cases hasDot with
    | false => simp at hne
    | true => exact ⟨'.', fds, by simp, Or.inr rfl⟩

/-- Last shape of a plain decimal string: it ends with a digit or with a
dot. -/
theorem number_last (ids fds : List Char) (hasDot : Bool)
    (hi : ∀ c ∈ ids, c.isDigit = true) (hf : ∀ c ∈ fds, c.isDigit = true)
    (hne : if hasDot then ids ++ fds ≠ [] else ids ≠ []) :
    ∃ ti cl, ids ++ (if hasDot then '.' :: fds else []) = ti ++ [cl] ∧
      (cl.isDigit = true ∨ cl = '.') := by
  cases hasDot with
  | false =>
    simp only [Bool.false_eq_true, if_false] at hne ⊢
    rcases List.eq_nil_or_concat' ids with rfl | ⟨L, b, hb⟩
    · simp at hne
    · refine ⟨L, b, by simp [hb], Or.inl (hi b ?_)⟩
      rw [hb]
      exact List.mem_append_right L (List.mem_singleton.mpr rfl)
  | true =>
    rcases List.eq_nil_or_concat' fds with rfl | ⟨L, b, hb⟩
    · exact ⟨ids, '.', by simp, Or.inr rfl⟩
    · refine ⟨ids ++ '.' :: L, b, ?_, Or.inl (hf b ?_)⟩
      · simp [hb]
      · rw [hb]
        exact List.mem_append_right L (List.mem_singleton.mpr rfl)

/-- The character classes appearing at the ends of a plain decimal string
are not whitespace. -/
theorem nospace_of_digit_or_dot (c : Char) (h : c.isDigit = true ∨ c = '.') :
    isPySpace c = false := by
  rcases h with h | rfl
  · exact pySpace_false_of_digit c h
  · decide

/-- Stripping a plain decimal string sandwiched in whitespace yields the
decimal string. -/
theorem pyStrip_number (w1 w2 ids fds : List Char) (hasDot : Bool)
    (h1 : ∀ c ∈ w1, isPySpace c = true) (h2 : ∀ c ∈ w2, isPySpace c = true)
    (hi : ∀ c ∈ ids, c.isDigit = true) (hf : ∀ c ∈ fds, c.isDigit = true)
    (hne : if hasDot then ids ++ fds ≠ [] else ids ≠ []) :
    pyStrip (w1 ++ (ids ++ (if hasDot then '.' :: fds else [])) ++ w2)
      = ids ++ (if hasDot then '.' :: fds else []) := by
  obtain ⟨c0, t, hm, hc0⟩ := number_head ids fds hasDot hi hne
  obtain ⟨ti, cl, hl, hcl⟩ := number_last ids fds hasDot hi hf hne
  exact pyStrip_sandwich w1 _ w2 h1 h2 c0 t hm (nospace_of_digit_or_dot c0 hc0)
    cl ti hl (nospace_of_digit_or_dot cl hcl)

theorem floatParses_number (ids fds : List Char) (hasDot : Bool)
    (hi : ∀ c ∈ ids, c.isDigit = true) (hf : ∀ c ∈ fds, c.isDigit = true)
    (hne : if hasDot then ids ++ fds ≠ [] else ids ≠ []) :
    floatParses (ids ++ (if hasDot then '.' :: fds else [])) = true := by
  obtain ⟨c0, t, hm, hc0⟩ := number_head ids fds hasDot hi hne
  have hstrip : pyStrip (ids ++ (if hasDot then '.' :: fds else []))
      = ids ++ (if hasDot then '.' :: fds else []) := by
    have h0 := pyStrip_number [] [] ids fds hasDot (by simp) (by simp) hi hf hne
    simpa using h0
  have hsign : parseSign (ids ++ (if hasDot then '.' :: fds else []))
      = (false, ids ++ (if hasDot then '.' :: fds else [])) := by
    rw [hm]
    refine parseSign_cons_other c0 t ?_ ?_
    · rcases hc0 with hd | rfl
      · exact ne_of_digit_of_not c0 '+' hd (by decide)
      · decide
    · rcases hc0 with hd | rfl
      · exact ne_of_digit_of_not c0 '-' hd (by decide)
      · decide
  have hlow : lowerChar c0 ≠ 'i' ∧ lowerChar c0 ≠ 'n' := by
    rcases hc0 with hd | rfl
    · rw [lowerChar_of_digit c0 hd]
      exact ⟨ne_of_digit_of_not c0 'i' hd (by decide), ne_of_digit_of_not c0 'n' hd (by decide)⟩
    · exact ⟨by decide, by decide⟩
  have hA : ¬(lowerChar c0 :: t.map lowerChar = ['i', 'n', 'f'] ∨
      lowerChar c0 :: t.map lowerChar = ['i', 'n', 'f', 'i', 'n', 'i', 't', 'y']) := by
    rintro (hq | hq) <;> exact hlow.1 (List.cons.inj hq).1
  have hB : lowerChar c0 :: t.map lowerChar ≠ ['n', 'a', 'n'] :=
    fun hq => hlow.2 (List.cons.inj hq).1
  simp only [floatParses, pyFloat]
  rw [hstrip, hsign]
  simp only [hm, List.map_cons]
  rw [if_neg hA, if_neg hB]
  rw [← hm]
  cases hasDot with
  | true =>
    simp only [if_true] at hne ⊢
    have e1 : digitsRun (ids ++ '.' :: fds) = (ids, '.' :: fds) :=
      digitsRun_digits ids ('.' :: fds) hi ⟨by decide, by decide⟩
    have e2 : digitsRun fds = (fds, []) := by
      simpa using digitsRun_digits fds [] hf trivial
    have hcond : ¬(ids = [] ∧ fds = []) := by
      rintro ⟨rfl, rfl⟩
      exact hne rfl
    simp only [pyDecimal, e1, e2]
    simp [hcond]
  | false =>
    simp only [Bool.false_eq_true, if_false] at hne ⊢
    have e1 : digitsRun (ids ++ []) = (ids, []) := digitsRun_digits ids [] hi trivial
    rw [List.append_nil] at e1
    rw [List.append_nil]
    have hcond : ¬(ids = [] ∧ ([] : List Char) = []) := by
      rintro ⟨rfl, h2⟩
      exact hne rfl
    simp only [pyDecimal, e1]
    simp [hcond, hne]

/-- The cleaning pipeline on a decorated decimal string yields the bare
number. -/
theorem cleanPrice_raw (d : DecoratedRaw) (h : d.WF = true) :
    cleanPrice d.raw = d.number := by
  have hWF := h
  simp only [DecoratedRaw.WF, Bool.and_eq_true, List.all_eq_true, Bool.or_eq_true,
    beq_iff_eq] at hWF
  obtain ⟨⟨⟨⟨⟨hw1, hw2⟩, hsep⟩, hint⟩, hfrac⟩, hne0⟩ := hWF
  have hne : if d.hasDot then d.intDigits ++ d.frac ≠ [] else d.intDigits ≠ [] := by
    cases hd : d.hasDot <;> simp [hd] at hne0 ⊢ <;> simpa using hne0
  have hid : ∀ c ∈ d.intDigits, c.isDigit = true := by
    intro c hc
    obtain ⟨h1, h2⟩ := mem_removeChar ',' d.intDisplay c hc
    rcases hint c h1 with hd | he
    · exact hd
    · exact absurd he h2
  have hspace_ne : ∀ (w : List Char), (∀ c ∈ w, isPySpace c = true) →
      ∀ x : Char, isPySpace x = false → ∀ c ∈ w, c ≠ x := by
    intro w hw x hx c hc he
    rw [he] at hc
    rw [hw x hc] at hx
    exact absurd hx (by decide)
  have hU_ws1 : 'U' ∉ d.ws1 := not_mem_of_all _ _ hw1 'U' (by decide)
  have hU_ws2 : 'U' ∉ d.ws2 := not_mem_of_all _ _ hw2 'U' (by decide)
  have hU_sep : 'U' ∉ d.sep := not_mem_of_all _ _ hsep 'U' (by decide)
  have hU_int : 'U' ∉ d.intDisplay := by
    intro hm
    rcases hint 'U' hm with hd | he
    · exact absurd hd (by decide)
    · exact absurd he (by decide)
  have hU_frac : 'U' ∉ d.frac := fun hm => absurd (hfrac 'U' hm) (by decide)
  have hU_dot : 'U' ∉ (if d.hasDot then '.' :: d.frac else []) := by
    cases hd : d.hasDot
    · simp
    · rw [if_pos rfl]
      intro hm
      rcases List.mem_cons.mp hm with he | hm2
      · exact absurd he (by decide)
      · exact hU_frac hm2
  have hU_dOpt : 'U' ∉ (if d.dollar then ['$'] else []) := by
    cases hd : d.dollar
    · simp
    · rw [if_pos rfl]
      intro hm
      exact absurd (List.mem_singleton.mp hm) (by decide)
  have step1 : removeUSDC d.raw =
      d.ws1 ++ ((if d.dollar then ['$'] else []) ++ (d.intDisplay ++
        ((if d.hasDot then '.' :: d.frac else []) ++
          ((if d.usdc then d.sep else []) ++ d.ws2)))) := by
    unfold DecoratedRaw.raw
    cases hu : d.usdc
    · simp only [Bool.false_eq_true, if_false, List.append_nil, List.nil_append]
      rw [removeUSDC_of_not_mem]
      · simp [List.append_assoc]
      · simp only [List.mem_append]
        rintro ((((h1 | h2) | h3) | h4) | h5)
        · exact hU_ws1 h1
        · exact hU_dOpt h2
        · exact hU_int h3
        · exact hU_dot h4
        · exact hU_ws2 h5
    · simp only [eq_self_iff_true, if_true]
      simp only [List.append_assoc, List.cons_append, List.nil_append]
      rw [removeUSDC_append_left _ _ hU_ws1, removeUSDC_append_left _ _ hU_dOpt,
        removeUSDC_append_left _ _ hU_int, removeUSDC_append_left _ _ hU_dot,
        removeUSDC_append_left _ _ hU_sep]
      rw [show removeUSDC ('U' :: 'S' :: 'D' :: 'C' :: d.ws2) = removeUSDC d.ws2 from rfl]
      rw [removeUSDC_of_not_mem _ hU_ws2]
  have hint_ne : ∀ x : Char, x.isDigit = false → x ≠ ',' → ∀ c ∈ d.intDisplay, c ≠ x := by
    intro x hx1 hx2 c hc he
    rw [he] at hc
    rcases hint x hc with hd | hcm
    · rw [hd] at hx1
      exact absurd hx1 (by decide)
    · exact hx2 hcm
  have hfrac_ne : ∀ x : Char, x.isDigit = false → ∀ c ∈ d.frac, c ≠ x := by
    intro x hx1 c hc he
    rw [he] at hc
    rw [hfrac x hc] at hx1
    exact absurd hx1 (by decide)
  have hdot_ne : ∀ x : Char, x.isDigit = false → x ≠ '.' →
      ∀ c ∈ (if d.hasDot then '.' :: d.frac else []), c ≠ x := by
    intro x h1 h2 c hc he
    by_cases hdd : d.hasDot = true
    · rw [if_pos hdd] at hc
      rcases List.mem_cons.mp hc with rfl | hm2
      · exact h2 he.symm
      · exact hfrac_ne x h1 c hm2 he
    · rw [if_neg hdd] at hc
      exact absurd hc (List.not_mem_nil c)
  have hsepOpt : ∀ c ∈ (if d.usdc then d.sep else []), isPySpace c = true := by
    intro c hc
    by_cases hu : d.usdc = true
    · rw [if_pos hu] at hc
      exact hsep c hc
    · rw [if_neg hu] at hc
      exact absurd hc (List.not_mem_nil c)
  have hdOpt_dollar : removeChar '$' (if d.dollar then ['$'] else []) = [] := by
    by_cases hdd : d.dollar = true
    · rw [if_pos hdd]
      decide
    · rw [if_neg hdd]
      rfl
  have step2 : removeChar '$' (d.ws1 ++ ((if d.dollar then ['$'] else []) ++ (d.intDisplay ++
      ((if d.hasDot then '.' :: d.frac else []) ++
        ((if d.usdc then d.sep else []) ++ d.ws2))))) =
      d.ws1 ++ (d.intDisplay ++ ((if d.hasDot then '.' :: d.frac else []) ++
        ((if d.usdc then d.sep else []) ++ d.ws2))) := by
    simp only [removeChar_append]
    rw [removeChar_of_all_ne '$' d.ws1 (hspace_ne _ hw1 '$' (by decide)),
      removeChar_of_all_ne '$' d.ws2 (hspace_ne _ hw2 '$' (by decide)),
      removeChar_of_all_ne '$' d.intDisplay (hint_ne '$' (by decide) (by decide)),
      removeChar_of_all_ne '$' _ (hdot_ne '$' (by decide) (by decide)),
      removeChar_of_all_ne '$' _ (hspace_ne _ hsepOpt '$' (by decide)),
      hdOpt_dollar]
    simp
  have step3 : removeChar ',' (d.ws1 ++ (d.intDisplay ++
      ((if d.hasDot then '.' :: d.frac else []) ++
        ((if d.usdc then d.sep else []) ++ d.ws2)))) =
      d.ws1 ++ (d.intDigits ++ ((if d.hasDot then '.' :: d.frac else []) ++
        ((if d.usdc then d.sep else []) ++ d.ws2))) := by
    simp only [removeChar_append]
    rw [removeChar_of_all_ne ',' d.ws1 (hspace_ne _ hw1 ',' (by decide)),
      removeChar_of_all_ne ',' d.ws2 (hspace_ne _ hw2 ',' (by decide)),
      removeChar_of_all_ne ',' _ (hdot_ne ',' (by decide) (by decide)),
      removeChar_of_all_ne ',' _ (hspace_ne _ hsepOpt ',' (by decide))]
    rfl
  have hsw : ∀ c ∈ (if d.usdc then d.sep else []) ++ d.ws2, isPySpace c = true := by
    intro c hc
    rcases List.mem_append.mp hc with h1 | h2
    · exact hsepOpt c h1
    · exact hw2 c h2
  have step4 := pyStrip_number d.ws1 ((if d.usdc then d.sep else []) ++ d.ws2)
    d.intDigits d.frac d.hasDot hw1 hsw hid hfrac hne
  unfold cleanPrice DecoratedRaw.number
  rw [step1, step2, step3]
  simpa only [List.append_assoc] using step4

theorem WF_intDigits (d : DecoratedRaw) (h : d.WF = true) :
    ∀ c ∈ d.intDigits, c.isDigit = true := by
  have hWF := h
  simp only [DecoratedRaw.WF, Bool.and_eq_true, List.all_eq_true, Bool.or_eq_true,
    beq_iff_eq] at hWF
  obtain ⟨⟨⟨⟨⟨hw1, hw2⟩, hsep⟩, hint⟩, hfrac⟩, hne0⟩ := hWF
  intro c hc
  obtain ⟨h1, h2⟩ := mem_removeChar ',' d.intDisplay c hc
  rcases hint c h1 with hd | he
  · exact hd
  · exact absurd he h2

theorem WF_frac (d : DecoratedRaw) (h : d.WF = true) :
    ∀ c ∈ d.frac, c.isDigit = true := by
  have hWF := h
  simp only [DecoratedRaw.WF, Bool.and_eq_true, List.all_eq_true, Bool.or_eq_true,
    beq_iff_eq] at hWF
  exact hWF.1.2

theorem WF_ne (d : DecoratedRaw) (h : d.WF = true) :
    if d.hasDot then d.intDigits ++ d.frac ≠ [] else d.intDigits ≠ [] := by
  have hWF := h
  simp only [DecoratedRaw.WF, Bool.and_eq_true, List.all_eq_true, Bool.or_eq_true,
    beq_iff_eq] at hWF
  have hne0 := hWF.2
  cases hd : d.hasDot <;> simp [hd] at hne0 ⊢ <;> simpa using hne0

theorem normalize_price_raw (d : DecoratedRaw) (h : d.WF = true) :
    normalize_price d.raw = Except.ok d.number := by
  have hc := cleanPrice_raw d h
  have hfp : floatParses d.number = true :=
    floatParses_number d.intDigits d.frac d.hasDot (WF_intDigits d h) (WF_frac d h) (WF_ne d h)
  have hnonempty : d.number ≠ [] := by
    have hne := WF_ne d h
    unfold DecoratedRaw.number
    cases hd : d.hasDot
    · rw [hd] at hne
      simp only [Bool.false_eq_true, if_false] at hne ⊢
      simpa using hne
    · rw [hd] at hne
      simp only [if_pos rfl] at hne ⊢
      simp
  simp only [normalize_price]
  rw [hc, if_pos hnonempty, if_pos hfp]

/-- C1: for every raw extracted text consisting of a decimal number
together with any combination of a `$` currency symbol, a `USDC` unit
suffix, `,` thousands separators and surrounding whitespace, the
normalizer returns a price value equal to the numeric value with the
decorations and separators removed; for every raw text with no parseable
numeric content after cleaning (including text that is empty after
cleaning), it fails with `InvalidFormat` rather than returning a
value. -/
theorem normalizer_spec :
    (∀ d : DecoratedRaw, d.WF = true → normalize_price d.raw = Except.ok d.number) ∧
    (∀ s : List Char, cleanPrice s = [] ∨ floatParses (cleanPrice s) = false →
      normalize_price s = Except.error FetchFailure.invalidFormat) := by
  constructor
  · exact normalize_price_raw
  · intro s hs
    rcases hs with h | h
    · simp [normalize_price, h]
    · by_cases hc : cleanPrice s = []
      · simp [normalize_price, hc]
      · simp [normalize_price, hc, h]

/-- Witness for C1 at the spec scenario `"$1,234.56 USDC"` and at a
whitespace-only text. -/
theorem normalizer_spec_witness :
    normalize_price ("$1,234.56 USDC".toList) = Except.ok ("1234.56".toList) ∧
    normalize_price ("  ".toList) = Except.error FetchFailure.invalidFormat := by
  constructor
  · exact normalizer_spec.1
      ⟨[], [], [' '], true, true, ['1', ',', '2', '3', '4'], true, ['5', '6']⟩ (by decide)
  · exact normalizer_spec.2 ("  ".toList) (Or.inl (by decide))

theorem runStrategies_all_fail (lookup : By × String → Option (List Char))
    (L : List (By × String)) (h : ∀ s ∈ L, consultFails lookup s) :
    runStrategies lookup L = (none, L.length) := by
  induction L with
  | nil => rfl
  | cons s rest ih =>
    have hs := h s (List.mem_cons_self s rest)
    have hrest := ih (fun s2 hs2 => h s2 (List.mem_cons_of_mem s hs2))
    cases hl : lookup s with
    | none => simp [runStrategies, hl, hrest]
    | some raw =>
      unfold consultFails at hs
      rw [hl] at hs
      simp [runStrategies, hl, hs, hrest]

theorem runStrategies_first_success (lookup : By × String → Option (List Char))
    (L1 L2 : List (By × String)) (s0 : By × String) (t : List Char)
    (h1 : ∀ s ∈ L1, consultFails lookup s) (h2 : lookup s0 = some t) (h3 : pyStrip t ≠ []) :
    runStrategies lookup (L1 ++ s0 :: L2) = (some (pyStrip t), L1.length + 1) := by
  induction L1 with
  | nil => simp [runStrategies, h2, h3]
  | cons s rest ih =>
    have hs := h1 s (List.mem_cons_self s rest)
    have hrest := ih (fun s2 hs2 => h1 s2 (List.mem_cons_of_mem s hs2))
    cases hl : lookup s with
    | none => simp [runStrategies, hl, hrest]
    | some raw =>
      unfold consultFails at hs
      rw [hl] at hs
      simp [runStrategies, hl, hs, hrest]

/-- C2: the extractor consults the static selector list in its fixed
order; the attempt's raw text result is the (stripped) text of the first
strategy in that order that locates an element with non-empty stripped
text, and exactly `i + 1` strategies are consulted, so strategies after
the first success are never consulted; if every strategy is exhausted
without yielding non-empty, non-whitespace text, the attempt fails with
`NoElementFound`. -/
theorem extractor_first_strategy :
    (∀ (lookup : By × String → Option (List Char)) (i : Nat)
       (hi : i < selectors_to_try.length) (t : List Char),
       (∀ s ∈ selectors_to_try.take i, consultFails lookup s) →
       lookup (selectors_to_try.get ⟨i, hi⟩) = some t → pyStrip t ≠ [] →
       runStrategies lookup selectors_to_try = (some (pyStrip t), i + 1)) ∧
    (∀ lookup : By × String → Option (List Char),
       (∀ s ∈ selectors_to_try, consultFails lookup s) →
       runStrategies lookup selectors_to_try = (none, 8)) ∧
    (∀ env : AttemptEnv, env.setupOk = true → env.driverOk = true →
       env.pageRaise = PageRaise.noRaise →
       (∀ s ∈ selectors_to_try, consultFails env.text s) →
       fetch_price_attempt env =
         (Except.error FetchFailure.noElementFound, [Ev.start, Ev.quitCall])) := by
  refine ⟨?_, ?_, ?_⟩
  · intro lookup i hi t hpre hsucc hne
    have hsplit : selectors_to_try =
        selectors_to_try.take i ++ selectors_to_try.get ⟨i, hi⟩ ::
          selectors_to_try.drop (i + 1) := by
      rw [List.get_eq_getElem]
      conv_lhs => rw [← List.take_append_drop i selectors_to_try]
      rw [List.drop_eq_getElem_cons hi]
    rw [hsplit, runStrategies_first_success lookup _ _ _ t hpre hsucc hne]
    simp only [List.length_take, Prod.mk.injEq, true_and]
    omega
  · intro lookup h
    rw [runStrategies_all_fail lookup selectors_to_try h]
    rfl
  · intro env h1 h2 h3 hfail
    have hrs := runStrategies_all_fail env.text selectors_to_try hfail
    simp [fetch_price_attempt, h1, h2, h3, hrs]

/-- Witness for C2: a page whose first selector yields `42` makes the
loop stop after one consultation with raw text `42`. -/
theorem extractor_first_strategy_witness :
    runStrategies (fun _ => some ['4', '2']) selectors_to_try = (some ['4', '2'], 1) := by
  have h := extractor_first_strategy.1 (fun _ => some ['4', '2']) 0 (by decide) ['4', '2']
    (by simp) rfl (by decide)
  exact h

/-- C3: on a tick where the fetch failed entirely after all retries, or
where the fetched value equals the stored last-known value, no external
call is made (neither the presence update nor the channel rename) and the
last-known value is left unchanged. -/
theorem tick_noop_on_failed_or_unchanged :
    ∀ (env : TickEnv) (last : Option (List Char)),
      (env.fetched = none ∨ (∃ p, env.fetched = some p ∧ last = some p)) →
      update_bot_status env last = (last, []) := by
  intro env last h
  unfold update_bot_status
  rcases h with h | ⟨p, hp, hl⟩
  · rw [h]
    by_cases hr : env.ready = true <;> simp [hr]
  · rw [hp, hl]
    by_cases hr : env.ready = true <;> simp [hr]

/-- C4: the stored last-known value is updated exactly when the channel
rename call succeeds: whenever the rename call is made and succeeds the
new last-known value is the fetched value; whenever it is made and fails
(in particular rate-limited), and whenever it is not made at all, the
last-known value keeps its previous value. -/
theorem tick_last_price_iff_rename_ok :
    ∀ (env : TickEnv) (last : Option (List Char)),
      (ExtCall.channelRename ∈ (update_bot_status env last).2 → env.rename = RenameOutcome.ok →
        (update_bot_status env last).1 = env.fetched) ∧
      (ExtCall.channelRename ∈ (update_bot_status env last).2 → env.rename ≠ RenameOutcome.ok →
        (update_bot_status env last).1 = last) ∧
      (ExtCall.channelRename ∉ (update_bot_status env last).2 →
        (update_bot_status env last).1 = last) := by
  intro env last
  obtain ⟨ready, fetched, chv, ren⟩ := env
  cases ready
  · refine ⟨?_, ?_, ?_⟩ <;> simp [update_bot_status]
  · cases fetched with
    | none => refine ⟨?_, ?_, ?_⟩ <;> simp [update_bot_status]
    | some p =>
      by_cases hp : p = []
      · refine ⟨?_, ?_, ?_⟩ <;> simp [update_bot_status, hp]
      · by_cases hch : some p ≠ last
        · cases chv
          · refine ⟨?_, ?_, ?_⟩ <;> simp [update_bot_status, hp, hch]
          · cases ren <;> refine ⟨?_, ?_, ?_⟩ <;>
              simp [update_bot_status, hp, hch]
        · refine ⟨?_, ?_, ?_⟩ <;> simp [update_bot_status, hp, hch]

/-- Witness for C3 at the spec scenario: fetched value equals stored
`12.34`, zero external calls. -/
theorem tick_noop_witness :
    update_bot_status ⟨true, some ['1', '2', '.', '3', '4'], true, RenameOutcome.ok⟩
      (some ['1', '2', '.', '3', '4']) = (some ['1', '2', '.', '3', '4'], []) :=
  tick_noop_on_failed_or_unchanged _ _ (Or.inr ⟨['1', '2', '.', '3', '4'], rfl, rfl⟩)

/-- Witness for C4: successful rename updates the stored value;
rate-limited rename leaves it unchanged. -/
theorem tick_last_price_iff_rename_ok_witness :
    (update_bot_status ⟨true, some ['5'], true, RenameOutcome.ok⟩ none).1 = some ['5'] ∧
    (update_bot_status ⟨true, some ['5'], true, RenameOutcome.rateLimited⟩ none).1 = none := by
  constructor
  · exact (tick_last_price_iff_rename_ok ⟨true, some ['5'], true, RenameOutcome.ok⟩ none).1
      (by decide) rfl
  · exact ((tick_last_price_iff_rename_ok ⟨true, some ['5'], true,
      RenameOutcome.rateLimited⟩ none).2).1 (by decide) (by decide)

/-- C8 counterexample: after a permission-denied (`discord.Forbidden`)
rename failure the last-known value stays `None`, so on the very next
tick with the same fetched value `5` the rename for that same value IS
attempted again — the claim that it is not re-attempted on subsequent
ticks while the fetched value stays the same is false on the code. -/
theorem forbidden_rename_reattempted :
    (update_bot_status ⟨true, some ['5'], true, RenameOutcome.forbidden⟩ none).1 = none ∧
    ExtCall.channelRename ∈ (update_bot_status ⟨true, some ['5'], true,
      RenameOutcome.forbidden⟩ none).2 ∧
    ExtCall.channelRename ∈ (update_bot_status ⟨true, some ['5'], true, RenameOutcome.forbidden⟩
      ((update_bot_status ⟨true, some ['5'], true, RenameOutcome.forbidden⟩ none).1)).2 :=
  ⟨rfl, by decide, by decide⟩

/-- C8 (amended): a permission-denied rename failure is caught and not
retried within the same tick (the rename is called exactly once in the
tick), but it is not terminal for the value: the last-known value is
left unchanged, so the next tick with the same environment attempts the
rename for the same value again. -/
theorem forbidden_rename_not_terminal :
    ∀ (env : TickEnv) (last : Option (List Char)),
      ExtCall.channelRename ∈ (update_bot_status env last).2 →
      env.rename = RenameOutcome.forbidden →
      (update_bot_status env last).1 = last ∧
      (update_bot_status env last).2.count ExtCall.channelRename = 1 ∧
      ExtCall.channelRename ∈ (update_bot_status env ((update_bot_status env last).1)).2 := by
  intro env last hmem hforb
  obtain ⟨ready, fetched, chv, ren⟩ := env
  subst hforb
  cases ready
  · simp [update_bot_status] at hmem
  · cases fetched with
    | none => simp [update_bot_status] at hmem
    | some p =>
      by_cases hp : p = []
      · simp [update_bot_status, hp] at hmem
      · by_cases hch : some p ≠ last
        · cases chv
          · simp [update_bot_status, hp, hch] at hmem
          · refine ⟨?_, ?_, ?_⟩ <;> simp [update_bot_status, hp, hch]
        · simp [update_bot_status, hp, hch] at hmem

/-- C10 counterexample: when the configured channel does not resolve to a
voice channel, the first successful fetch triggers only the status
update, not the rename — so "always triggers both external updates" is
false on the code. -/
theorem first_fetch_invalid_channel_no_rename :
    update_bot_status ⟨true, some ['5'], false, RenameOutcome.ok⟩ last_price_init
      = (none, [ExtCall.presenceUpdate]) ∧
    ExtCall.channelRename ∉ (update_bot_status ⟨true, some ['5'], false, RenameOutcome.ok⟩
      last_price_init).2 :=
  ⟨rfl, by decide⟩

/-- C10 (amended): the last-known value starts as `None`, which differs
from every fetched value, so the first successful fetch always compares
as changed and triggers the status update, and triggers the rename as
well whenever the configured channel resolves to a voice channel. -/
theorem first_fetch_triggers_updates :
    ∀ (env : TickEnv) (p : List Char), env.ready = true → env.fetched = some p → p ≠ [] →
      some p ≠ last_price_init ∧
      ExtCall.presenceUpdate ∈ (update_bot_status env last_price_init).2 ∧
      (env.channelValid = true →
        (update_bot_status env last_price_init).2 =
          [ExtCall.presenceUpdate, ExtCall.channelRename]) := by
  intro env p hr hf hp
  obtain ⟨ready, fetched, chv, ren⟩ := env
  dsimp only at hr hf
  subst hr
  subst hf
  refine ⟨by simp [last_price_init], ?_, ?_⟩
  · cases chv
    · simp [update_bot_status, last_price_init, hp]
    · cases ren <;> simp [update_bot_status, last_price_init, hp]
  · intro hcv
    dsimp only at hcv
    subst hcv
    cases ren <;> simp [update_bot_status, last_price_init, hp]

/-- Witness for C8 (amended) at a concrete forbidden tick. -/
theorem forbidden_rename_not_terminal_witness :
    (update_bot_status ⟨true, some ['5'], true, RenameOutcome.forbidden⟩ none).1 = none ∧
    (update_bot_status ⟨true, some ['5'], true, RenameOutcome.forbidden⟩ none).2.count
      ExtCall.channelRename = 1 := by
  have h := forbidden_rename_not_terminal ⟨true, some ['5'], true, RenameOutcome.forbidden⟩ none
    (by decide) rfl
  exact ⟨h.1, h.2.1⟩

/-- Witness for C10 (amended) at a concrete first fetch of `7.5`. -/
theorem first_fetch_triggers_updates_witness :
    (update_bot_status ⟨true, some ['7', '.', '5'], true, RenameOutcome.ok⟩ last_price_init).2 =
      [ExtCall.presenceUpdate, ExtCall.channelRename] := by
  have h := first_fetch_triggers_updates ⟨true, some ['7', '.', '5'], true, RenameOutcome.ok⟩
    ['7', '.', '5'] rfl rfl (by decide)
  exact h.2.2 rfl

/-- C5: in the retry orchestrator driven by `fetch_price_attempt`, after
every failed attempt `n` with attempts remaining — regardless of which
failure kind the attempt reported — the sleep inserted before attempt
`n + 1` equals `base_delay * 2 ^ (n - 1)` plus the random jitter drawn
from `randint(5, 15)`.  (The defensive `except` branch of `fetch_price`
with its flat `base_delay + randint(10, 20)` delay is part of the
embedding but unreachable here, because `fetch_price_attempt` catches
every exception and returns a typed failure.) -/
theorem backoff_delay_formula :
    ∀ (envs : Nat → AttemptEnv) (jA jB : Nat → Nat) (n : Nat), 1 ≤ n → n < max_attempts →
      (∀ k, 1 ≤ k → k ≤ n → ∃ e, (fetch_price_attempt (envs k)).1 = Except.error e) →
      ((fetch_price (outcomesOf envs) jA jB).2)[n - 1]? =
        some (base_delay * 2 ^ (n - 1) + jA n) := by
  intro envs jA jB n h1 h2 hfail
  have h3 : n < 3 := h2
  interval_cases n
  · obtain ⟨e1, he1⟩ := hfail 1 (by omega) (by omega)
    have ho1 : outcomesOf envs 1 = AttemptOutcome.failed := by
      unfold outcomesOf
      rw [he1]
    unfold fetch_price
    rw [show List.range' 1 max_attempts = [1, 2, 3] from rfl]
    simp [fetch_price_go, ho1, max_attempts]
  · obtain ⟨e1, he1⟩ := hfail 1 (by omega) (by omega)
    obtain ⟨e2, he2⟩ := hfail 2 (by omega) (by omega)
    have ho1 : outcomesOf envs 1 = AttemptOutcome.failed := by
      unfold outcomesOf
      rw [he1]
    have ho2 : outcomesOf envs 2 = AttemptOutcome.failed := by
      unfold outcomesOf
      rw [he2]
    unfold fetch_price
    rw [show List.range' 1 max_attempts = [1, 2, 3] from rfl]
    simp [fetch_price_go, ho1, ho2, max_attempts]

/-- Witness for C5: all attempts fail provisioning, jitter 5, so the
first sleep is 35 seconds. -/
theorem backoff_delay_formula_witness :
    ((fetch_price (outcomesOf (fun _ => ⟨false, true, PageRaise.noRaise, fun _ => none⟩))
      (fun _ => 5) (fun _ => 10)).2)[0]? = some 35 := by
  have h := backoff_delay_formula (fun _ => ⟨false, true, PageRaise.noRaise, fun _ => none⟩)
    (fun _ => 5) (fun _ => 10) 1 (le_refl 1) (by decide)
    (fun k hk1 hk2 => ⟨FetchFailure.provisioningFailure, rfl⟩)
  exact h

/-- C6: within one orchestrator invocation driven by
`fetch_price_attempt`, for every realization of the jitter within its
`randint(5, 15)` range, the sequence of backoff delays is non-decreasing
and every delay is strictly positive. -/
theorem backoff_monotone_positive :
    ∀ (envs : Nat → AttemptEnv) (jA jB : Nat → Nat),
      (∀ k, 5 ≤ jA k ∧ jA k ≤ 15) →
      List.Chain' (fun a b => a ≤ b) (fetch_price (outcomesOf envs) jA jB).2 ∧
      (∀ δ ∈ (fetch_price (outcomesOf envs) jA jB).2, 0 < δ) := by
  intro envs jA jB hj
  obtain ⟨hj1a, hj1b⟩ := hj 1
  obtain ⟨hj2a, hj2b⟩ := hj 2
  unfold fetch_price
  rw [show List.range' 1 max_attempts = [1, 2, 3] from rfl]
  cases h1 : (fetch_price_attempt (envs 1)).1 with
  | ok v =>
    have ho1 : outcomesOf envs 1 = AttemptOutcome.ok v := by
      unfold outcomesOf
      rw [h1]
    simp [fetch_price_go, ho1]
  | error e =>
    have ho1 : outcomesOf envs 1 = AttemptOutcome.failed := by
      unfold outcomesOf
      rw [h1]
    cases h2 : (fetch_price_attempt (envs 2)).1 with
    | ok v2 =>
      have ho2 : outcomesOf envs 2 = AttemptOutcome.ok v2 := by
        unfold outcomesOf
        rw [h2]
      constructor <;> simp [fetch_price_go, ho1, ho2, max_attempts, base_delay]
    | error e2 =>
      have ho2 : outcomesOf envs 2 = AttemptOutcome.failed := by
        unfold outcomesOf
        rw [h2]
      cases h3 : (fetch_price_attempt (envs 3)).1 with
      | ok v3 =>
        have ho3 : outcomesOf envs 3 = AttemptOutcome.ok v3 := by
          unfold outcomesOf
          rw [h3]
        constructor <;> simp [fetch_price_go, ho1, ho2, ho3, max_attempts, base_delay] <;>
          omega
      | error e3 =>
        have ho3 : outcomesOf envs 3 = AttemptOutcome.failed := by
          unfold outcomesOf
          rw [h3]
        constructor <;> simp [fetch_price_go, ho1, ho2, ho3, max_attempts, base_delay] <;>
          omega

/-- Witness for C6: all attempts fail, jitter 5, delays `[35, 65]` are
non-decreasing. -/
theorem backoff_monotone_positive_witness :
    List.Chain' (fun a b => a ≤ b)
      (fetch_price (outcomesOf (fun _ => ⟨false, true, PageRaise.noRaise, fun _ => none⟩))
        (fun _ => 5) (fun _ => 10)).2 :=
  (backoff_monotone_positive (fun _ => ⟨false, true, PageRaise.noRaise, fun _ => none⟩)
    (fun _ => 5) (fun _ => 10)
    (fun k => ⟨show (5 : Nat) ≤ 5 by decide, show (5 : Nat) ≤ 15 by decide⟩)).1

/-- C7 counterexample: a fetch attempt whose page shows `inf` succeeds
and returns the price value `inf`, which does not parse as a finite
number; and the normalizer likewise accepts `-5`, which is negative — so
"every accepted PriceValue parses as a finite non-negative number" is
false on the code, whose only validation is `float()`. -/
theorem accepted_value_not_finite_nonneg :
    (fetch_price_attempt ⟨true, true, PageRaise.noRaise, fun _ => some ['i', 'n', 'f']⟩).1 =
      Except.ok ['i', 'n', 'f'] ∧
    finiteNonneg ['i', 'n', 'f'] = false ∧
    normalize_price ['-', '5'] = Except.ok ['-', '5'] ∧
    finiteNonneg ['-', '5'] = false :=
  ⟨rfl, rfl, rfl, rfl⟩

/-- C7 (amended): every price value returned by a successful fetch
attempt is non-empty and parses under Python `float()`; float-parseability
is the whole guarantee — finiteness and non-negativity are not checked. -/
theorem accepted_value_float_parses :
    ∀ (env : AttemptEnv) (v : List Char) (evs : List Ev),
      fetch_price_attempt env = (Except.ok v, evs) →
      floatParses v = true ∧ v ≠ [] := by
  intro env v evs h
  obtain ⟨setupOk, driverOk, pageRaise, text⟩ := env
  cases setupOk
  · simp [fetch_price_attempt] at h
  · cases driverOk
    · simp [fetch_price_attempt] at h
    · cases pageRaise
      · cases hr : (runStrategies text selectors_to_try).1 with
        | none => simp [fetch_price_attempt, hr] at h
        | some pt =>
          simp only [fetch_price_attempt] at h
          rw [hr] at h
          simp only [Bool.true_eq_false, if_false, Prod.mk.injEq] at h
          have h1 := h.1
          by_cases hc : cleanPrice pt = []
          · simp [normalize_price, hc] at h1
          · by_cases hf : floatParses (cleanPrice pt) = true
            · have h2 : (Except.ok (cleanPrice pt) : Except FetchFailure (List Char)) =
                  Except.ok v := by
                rw [← h1]
                simp [normalize_price, hc, hf]
              have h3 : cleanPrice pt = v := by
                injection h2
              rw [← h3]
              exact ⟨hf, hc⟩
            · simp [normalize_price, hc, hf] at h1
      · simp [fetch_price_attempt] at h
      · simp [fetch_price_attempt] at h
      · simp [fetch_price_attempt] at h

/-- Witness for C7 (amended) at the `inf` page. -/
theorem accepted_value_float_parses_witness :
    floatParses ['i', 'n', 'f'] = true ∧ (['i', 'n', 'f'] : List Char) ≠ [] :=
  accepted_value_float_parses ⟨true, true, PageRaise.noRaise, fun _ => some ['i', 'n', 'f']⟩
    ['i', 'n', 'f'] [Ev.start, Ev.quitCall] rfl

/-- Per-attempt session trace: either no driver was created, or the
driver was started and then quit by the `finally` block. -/
theorem attempt_trace_cases (env : AttemptEnv) :
    (fetch_price_attempt env).2 = [] ∨ (fetch_price_attempt env).2 = [Ev.start, Ev.quitCall] := by
  obtain ⟨setupOk, driverOk, pageRaise, text⟩ := env
  cases setupOk
  · left
    rfl
  · cases driverOk
    · left
      rfl
    · cases pageRaise
      · right
        cases hr : (runStrategies text selectors_to_try).1 <;>
          simp [fetch_price_attempt, hr]
      · right
        rfl
      · right
        rfl
      · right
        rfl

/-- The trace of any run of the retry loop is a concatenation of
start-quit blocks. -/
theorem trace_go_blocks (envs : Nat → AttemptEnv) (L : List Nat) :
    ∃ m : Nat, fetch_price_trace_go envs L = (List.replicate m [Ev.start, Ev.quitCall]).flatten := by
  induction L with
  | nil => exact ⟨0, rfl⟩
  | cons a rest ih =>
    obtain ⟨m, hm⟩ := ih
    rcases attempt_trace_cases (envs a) with he | he
    · cases hr : (fetch_price_attempt (envs a)).1 with
      | ok v => exact ⟨0, by simp [fetch_price_trace_go, hr, he]⟩
      | error e => exact ⟨m, by simp [fetch_price_trace_go, hr, he, hm]⟩
    · cases hr : (fetch_price_attempt (envs a)).1 with
      | ok v => exact ⟨1, by simp [fetch_price_trace_go, hr, he]⟩
      | error e =>
        exact ⟨m + 1, by
          simp [fetch_price_trace_go, hr, he, hm, List.replicate_succ]⟩

/-- C9: every browser session created by a fetch attempt is released on
every exit path of that attempt — the session trace of an attempt is
either empty (no driver was created) or exactly start-then-quit; and the
whole orchestrator trace is a concatenation of start-quit blocks, so at
most one session exists at any time and no session survives into the
next attempt. -/
theorem session_released_every_path :
    (∀ env : AttemptEnv, (fetch_price_attempt env).2 = [] ∨
      (fetch_price_attempt env).2 = [Ev.start, Ev.quitCall]) ∧
    (∀ envs : Nat → AttemptEnv, ∃ m : Nat,
      fetch_price_trace envs = (List.replicate m [Ev.start, Ev.quitCall]).flatten) :=
  ⟨attempt_trace_cases, fun envs => trace_go_blocks envs (List.range' 1 max_attempts)⟩

end AnaBot
